import Mathlib

/-!
Verification development for the Nelder-Mead simplex minimizer
(`nelmin/nelmin.go` together with the vector arithmetic collaborator
`array/vector.go`).

Modelling conventions.
* `float64` values are embedded as rational numbers `ℚ`; Go `int` fields
  are embedded as `ℤ`.  Arithmetic in the claims under study is exact
  (sums, differences, products, divisions by nonzero integers), so `ℚ`
  is an exact carrier for the control flow the claims describe.
* A Go `*array.Vector` is its `Data` slice, a `List ℚ`.
* Functions that return a Go `error` are embedded with `Except String`
  (the string is the Go error message), or with an `Option String`
  second component when the Go caller may also receive a partially
  mutated receiver.
* `math.Sqrt` appears only in `fStats`, whose standard deviation is
  compared against the tolerance.  Over `ℚ` we carry the variance and
  use the decidable predicate `sdevLtTol`, which is proved equivalent
  to `Real.sqrt variance < tol` in `sdevLtTol_iff_sqrt_lt`.
* A Go runtime panic (an out-of-range slice index) aborts the whole
  process; it is modelled by the `RunResult.aborted` outcome, which the
  callers propagate, distinct from a returned Go `error` value.
* Go's `sort.Slice` with the comparison `F i < F j` produces a list
  that is sorted nondecreasingly by `F` (stability is unspecified);
  it is modelled with `List.insertionSort` on `F ≤ F`, a sorted
  permutation as the Go library guarantees.
-/

attribute [local semireducible] Rat.add Rat.mul Rat.sub Rat.inv

deriving instance DecidableEq for Except

/-- The data slice of a Go `array.Vector`. -/
abbrev Vec := List ℚ

/-- Models `z.Blend(a, b, sa, sb)` from `array/vector.go`: on matching
lengths `z` becomes the elementwise blend `sa*a + sb*b`; on a length
mismatch the method returns an error and leaves `z` unchanged (callers
in `nelmin.go` discard that error). -/
def blendInto (z a b : Vec) (sa sb : ℚ) : Vec :=
  if z.length = a.length ∧ z.length = b.length then
    List.zipWith (fun x y => sa * x + sb * y) a b
  else z

/-- Models `z.Add(z, b)` from `array/vector.go` as used by `Centroid`:
elementwise sum on matching lengths, `z` unchanged otherwise (the
returned error is discarded at the call site in `nelmin.go`). -/
def addInto (z b : Vec) : Vec :=
  if z.length = b.length then List.zipWith (· + ·) z b else z

/-- Models `approxEquals` from `nelmin/nelmin.go` (the same formula is
used elementwise by `Vector.ApproxEquals` in `array/vector.go`):
`math.Abs(a-b)/(0.5*(math.Abs(a)+math.Abs(b)+1.0)) <= tol`. -/
def approxEquals (a b tol : ℚ) : Bool :=
  decide (|a - b| / ((1/2) * (|a| + |b| + 1)) ≤ tol)

/-- Models `Vector.ApproxEquals` from `array/vector.go`: vectors of
different lengths are never approximately equal; otherwise every
component pair must pass the scalar test. -/
def vecApproxEquals (a b : Vec) (tol : ℚ) : Bool :=
  if a.length = b.length then
    (List.range a.length).all (fun i => approxEquals (a.getD i 0) (b.getD i 0) tol)
  else false

/-- Written from the spec's words, for comparison with the source
function `approxEquals`: the spec states the denominator as
`0.5*(|a|+|b|) + 1` where the source has `0.5*(|a|+|b|+1)`. -/
def approxEqualsSpecFormula (a b tol : ℚ) : Bool :=
  decide (|a - b| / ((1/2) * (|a| + |b|) + 1) ≤ tol)

/-- A simplex vertex from `nelmin/nelmin.go`: a point `X` paired with
its cached objective value `F`. -/
structure Vertex where
  X : Vec
  F : ℚ
deriving Repr, DecidableEq

instance : Inhabited Vertex := ⟨⟨[], 0⟩⟩

/-- Outcome of running a Go function that may hit a runtime panic:
`aborted` models an uncaught panic (here, an out-of-range slice index)
that kills the process, and `value` a normal return, carrying either a
result or a Go `error`. -/
inductive RunResult (α : Type) where
  | aborted : RunResult α
  | value : α → RunResult α
deriving Repr, DecidableEq

/-- Models `Centroid(va, p)` from `nelmin/nelmin.go`: mean point and
mean objective value of the first `k = len(va) - p` vertices, the Go
loop `for i := 0; i < k; i++` accumulating `va[i]` rendered as a left
fold over `va.take k` (exact, since `k <= len(va)` in the branch where
it runs).  When `k > len(va)` — that is, when `p < 0` — the Go loop
reads `va[len(va)]` and panics with an index-out-of-range error, which
is the `aborted` outcome. -/
def Centroid (va : List Vertex) (p : ℤ) : RunResult (Except String Vertex) :=
  if va.length = 0 then .value (.error "No vertices in array.")
  else
    let k : ℤ := (va.length : ℤ) - p
    if k ≤ 0 then .value (.error "Not enough vertices remaining.")
    else if (va.length : ℤ) < k then .aborted
    else
      let n := (va.headI).X.length
      let c : Vertex := (va.take k.toNat).foldl
        (fun acc v => ⟨addInto acc.X v.X, acc.F + v.F⟩)
        ⟨List.replicate n 0, 0⟩
      let s : ℚ := 1 / (k : ℚ)
      .value (.ok ⟨c.X.map (· * s), c.F * s⟩)

/-- Models `sortSimplex` from `nelmin/nelmin.go`: rearrange the
vertices nondecreasingly by objective value (Go's `sort.Slice` is not
stable, so any sorted permutation is a faithful outcome). -/
def sortSimplex (smplx : List Vertex) : List Vertex :=
  smplx.insertionSort (fun a b => a.F ≤ b.F)

instance : IsTotal Vertex (fun a b => a.F ≤ b.F) := ⟨fun a b => le_total a.F b.F⟩

instance : IsTrans Vertex (fun a b => a.F ≤ b.F) :=
  ⟨fun _ _ _ hab hbc => le_trans hab hbc⟩

/-- The point `x0` with component `i` perturbed by `dx[i]`, as built in
the loop body of `MakeSimplexAboutPoint`. -/
def perturb (x0 dx : Vec) (i : ℕ) : Vec :=
  x0.set i (x0.getD i 0 + dx.getD i 0)

/-- Models `MakeSimplexAboutPoint(f, x0, dx)` from `nelmin/nelmin.go`:
validate the configuration, evaluate `f` at `x0` and at each single-axis
perturbation, and sort the resulting `n+1` vertices.  The second
component is the evaluation count `nfe`. -/
def MakeSimplexAboutPoint (f : Vec → ℚ) (x0 dx : Vec) :
    Except String (List Vertex × ℕ) :=
  let n := x0.length
  if n = 0 then .error "Zero number of parameters."
  else if n ≠ dx.length then .error "len(dx) did not match len(x)"
  else if dx.any (fun d => decide (d = 0)) then
    .error "One or more zero value in dx."
  else
    let first : Vertex := ⟨x0, f x0⟩
    let rest := (List.range n).map
      (fun i => let x1 := perturb x0 dx i; (⟨x1, f x1⟩ : Vertex))
    .ok (sortSimplex (first :: rest), n + 1)

/-- Mean of the objective values across a simplex, from `fStats`. -/
def fMean (smplx : List Vertex) : ℚ :=
  (smplx.map (fun v => v.F)).sum / (smplx.length : ℚ)

/-- Population variance of the objective values across a simplex; the
source computes this value and then returns its square root as the
standard deviation. -/
def fVariance (smplx : List Vertex) : ℚ :=
  (smplx.map (fun v => (v.F - fMean smplx) * (v.F - fMean smplx))).sum
    / (smplx.length : ℚ)

/-- Models `fStats` from `nelmin/nelmin.go` up to the final square
root: the source returns `(mean, sqrt variance)`; we return
`(mean, variance)` and compare against the tolerance via `sdevLtTol`. -/
def fStats (smplx : List Vertex) : Except String (ℚ × ℚ) :=
  if smplx.length = 0 then .error "No points in simplex"
  else .ok (fMean smplx, fVariance smplx)

/-- Decidable rendering of the source's convergence comparison
`math.Sqrt(variance) < tol`; see `sdevLtTol_iff_sqrt_lt` for the proof
that this is exactly that comparison whenever `0 ≤ variance`. -/
def sdevLtTol (variance tol : ℚ) : Bool :=
  decide (0 < tol ∧ variance < tol * tol)

/-- Justification of the `sdevLtTol` encoding: for a nonnegative
variance it coincides with comparing the real square root to the
tolerance. -/
theorem sdevLtTol_iff_sqrt_lt (v t : ℚ) :
    sdevLtTol v t = true ↔ Real.sqrt (v : ℝ) < (t : ℝ) := by
  unfold sdevLtTol
  rw [decide_eq_true_iff]
  constructor
  · rintro ⟨ht, hlt⟩
    rw [Real.sqrt_lt' (by exact_mod_cast ht)]
    have : ((v : ℝ)) < (t : ℝ) * (t : ℝ) := by exact_mod_cast hlt
    nlinarith [this]
  · intro h
    have ht : (0 : ℝ) < (t : ℝ) := lt_of_le_of_lt (Real.sqrt_nonneg _) h
    have hvt : (v : ℝ) < (t : ℝ) ^ 2 := (Real.sqrt_lt' ht).mp h
    constructor
    · exact_mod_cast ht
    · have : (v : ℝ) < (t : ℝ) * (t : ℝ) := by nlinarith [hvt]
      exact_mod_cast this

/-- The minimizer state from `nelmin/nelmin.go`. -/
structure Minimizer where
  F : Vec → ℚ
  Vertices : List Vertex
  P : ℤ
  Steps : ℤ
  NFEvaluationsMax : ℤ
  NFEvaluations : ℤ
  Nrestarts : ℤ
  Kreflect : ℚ
  Kextend : ℚ
  Kcontract : ℚ
  Tol : ℚ

/-- Models `NewMinimizer` from `nelmin/nelmin.go` (default
configuration). -/
def NewMinimizer (f : Vec → ℚ) : Minimizer :=
  { F := f, Vertices := [], P := 1, Steps := 20, NFEvaluationsMax := 300,
    NFEvaluations := 0, Nrestarts := 0, Kreflect := 1, Kextend := 2,
    Kcontract := 1/2, Tol := 1/1000000 }

/-- Models `Minimizer.replaceVertex(i, xMid)` from `nelmin/nelmin.go`.
The Go method mutates `m.Vertices[i]` in place and returns
`(accepted, nfe)`; here the updated vertex list is returned alongside
those two results. -/
def replaceVertex (m : Minimizer) (i : ℕ) (xMid : Vec) :
    List Vertex × Bool × ℕ :=
  let fMin := (m.Vertices.getD 0 default).F
  let vHigh := m.Vertices.getD i default
  let xHigh := vHigh.X
  let fHigh := vHigh.F
  let n := xHigh.length
  let xRefl := blendInto (List.replicate n 0) xMid xHigh (1 + m.Kreflect) (-m.Kreflect)
  let fRefl := m.F xRefl
  if fRefl < fMin then
    let xExt := blendInto (List.replicate n 0) xMid xRefl (1 - m.Kextend) m.Kextend
    let fExt := m.F xExt
    if fExt < fRefl then (m.Vertices.set i ⟨xExt, fExt⟩, true, 2)
    else (m.Vertices.set i ⟨xRefl, fRefl⟩, true, 2)
  else
    let count := ((List.range (n + 1)).filter
      (fun j => decide (fRefl < (m.Vertices.getD j default).F))).length
    if count ≤ 1 then
      let xCon := blendInto (List.replicate n 0) xMid xHigh (1 - m.Kcontract) m.Kcontract
      let fCon := m.F xCon
      if fCon < fHigh then (m.Vertices.set i ⟨xCon, fCon⟩, true, 2)
      else (m.Vertices, false, 2)
    else (m.Vertices.set i ⟨xRefl, fRefl⟩, true, 1)

/-- Models `Minimizer.contractAboutBestPoint` from `nelmin/nelmin.go`:
every vertex except index 0 is blended halfway toward the best point
(the Go call `m.Vertices[i].X.Blend(xMin, m.Vertices[i].X, 0.5, 0.5)`
aliases the destination with its second operand) and is re-evaluated;
`nv - 1` evaluations are charged. -/
def contractAboutBestPoint (m : Minimizer) : Minimizer :=
  let xMin := (m.Vertices.getD 0 default).X
  let newVerts := m.Vertices.mapIdx (fun i v =>
    if i = 0 then v
    else
      let x := blendInto v.X xMin v.X (1/2) (1/2)
      (⟨x, m.F x⟩ : Vertex))
  { m with Vertices := newVerts,
           NFEvaluations := m.NFEvaluations + ((m.Vertices.length : ℤ) - 1) }

/-- One pass of the inner loop of `TakeSteps`: attempt a replacement of
vertex `nv - 1 - i`, thread the evaluation count and the accepted flag. -/
def replStep (xMid : Vec) (nv : ℕ) (acc : Minimizer × Bool) (i : ℕ) :
    Minimizer × Bool :=
  let r := replaceVertex acc.1 (nv - 1 - i) xMid
  ({ acc.1 with Vertices := r.1,
                NFEvaluations := acc.1.NFEvaluations + (r.2.2 : ℤ) },
   acc.2 || r.2.1)

/-- The inner loop `for i := 0; i < m.P; i++` of `TakeSteps`: the `P`
worst slots are attempted sequentially, each call observing the list as
left by the previous one (exactly as the sequential Go code does). -/
def attemptReplacements (m : Minimizer) (xMid : Vec) : Minimizer × Bool :=
  (List.range m.P.toNat).foldl (replStep xMid m.Vertices.length) (m, false)

/-- One iteration of the step loop in `Minimizer.TakeSteps`: centroid,
replacement attempts for the `P` worst slots, shrink with a restart
increment when none succeeded, and a final re-sort.  A centroid failure
aborts the iteration before any mutation. -/
def takeOneStep (m : Minimizer) : RunResult (Except String Minimizer) :=
  match Centroid m.Vertices m.P with
  | .aborted => .aborted
  | .value (.error e) =>
    .value (.error ("Error while computing centroid: " ++ e))
  | .value (.ok vMid) =>
    let r := attemptReplacements m vMid.X
    let m2 := if r.2 then r.1
      else
        let mc := contractAboutBestPoint r.1
        { mc with Nrestarts := mc.Nrestarts + 1 }
    .value (.ok { m2 with Vertices := sortSimplex m2.Vertices })

/-- Step-counting recursion behind `TakeSteps`; on an error the state
reached so far is returned together with the message (the Go method
mutates the receiver in place and returns the error), and a runtime
panic propagates. -/
def takeStepsAux : ℕ → Minimizer → RunResult (Minimizer × Option String)
  | 0, m => .value (m, none)
  | Nat.succ k, m =>
    match takeOneStep m with
    | .aborted => .aborted
    | .value (.error e) => .value (m, some e)
    | .value (.ok m1) => takeStepsAux k m1

/-- Models `Minimizer.TakeSteps(nsteps)` from `nelmin/nelmin.go`. -/
def TakeSteps (m : Minimizer) (nsteps : ℤ) :
    RunResult (Minimizer × Option String) :=
  takeStepsAux nsteps.toNat m

/-- The outer loop of `MinimizeFromPoint`, with explicit fuel standing
for the unbounded Go `for` loop: `none` means the fuel ran out before
the loop exited (the Go loop is still running), while `some .aborted`
is a propagated runtime panic.  The error returned by `TakeSteps` is
discarded, exactly as in the source (`m.TakeSteps(m.Steps)` with no
assignment). -/
def minimizeLoop (fuel : ℕ) (m : Minimizer) :
    Option (RunResult (Except String Minimizer)) :=
  match fuel with
  | 0 => none
  | Nat.succ fuel =>
    if m.NFEvaluations < m.NFEvaluationsMax then
      match TakeSteps m m.Steps with
      | .aborted => some .aborted
      | .value ts =>
        let m1 := ts.1
        match fStats m1.Vertices with
        | .error e =>
          some (.value (.error ("Error while computing function stats: " ++ e)))
        | .ok st =>
          if sdevLtTol st.2 m1.Tol then some (.value (.ok m1))
          else minimizeLoop fuel m1
    else some (.value (.ok m))

/-- Models `Minimizer.MinimizeFromPoint(x, dx)` from `nelmin/nelmin.go`:
build the initial simplex, then run the batched outer loop. -/
def MinimizeFromPoint (fuel : ℕ) (m : Minimizer) (x dx : Vec) :
    Option (RunResult (Except String Minimizer)) :=
  match MakeSimplexAboutPoint m.F x dx with
  | .error e =>
    .some (.value (.error ("Error while making initial simplex: " ++ e)))
  | .ok r =>
    minimizeLoop fuel
      { m with Vertices := r.1, NFEvaluations := m.NFEvaluations + (r.2 : ℤ) }

/-- Elementwise sum, used to state the spec-side formulas. -/
def vecAdd (a b : Vec) : Vec := List.zipWith (· + ·) a b

/-- Elementwise difference, used to state the spec-side formulas. -/
def vecSub (a b : Vec) : Vec := List.zipWith (fun x y => x - y) a b

/-- Scalar multiple, used to state the spec-side formulas. -/
def vecSMul (s : ℚ) (a : Vec) : Vec := a.map (fun x => s * x)

/-- Sum of squared components: the square of the Euclidean norm. -/
def sqNorm (a : Vec) : ℚ := (a.map (fun x => x * x)).sum

/-- Sortedness of a simplex: nondecreasing objective values. -/
def SortedByF (l : List Vertex) : Prop :=
  List.Pairwise (fun a b => a.F ≤ b.F) l

/-! ### Helper lemmas about the vector operations -/

theorem zipWith_left_fuse (g f : ℚ → ℚ → ℚ) :
    ∀ (a b : Vec),
      List.zipWith g a (List.zipWith f a b)
        = List.zipWith (fun x y => g x (f x y)) a b := by
  intro a
  induction a with
  | nil => intro b; simp
  | cons x xs ih =>
    intro b
    cases b with
    | nil => simp
    | cons y ys => simp [ih]

theorem zipWith_right_fuse (g f : ℚ → ℚ → ℚ) :
    ∀ (a b : Vec),
      List.zipWith g a (List.zipWith f b a)
        = List.zipWith (fun x y => g x (f y x)) a b := by
  intro a
  induction a with
  | nil => intro b; simp
  | cons x xs ih =>
    intro b
    cases b with
    | nil => simp
    | cons y ys => simp [ih]

theorem blendInto_replicate (a b : Vec) (sa sb : ℚ) (h : a.length = b.length) :
    blendInto (List.replicate b.length 0) a b sa sb
      = List.zipWith (fun x y => sa * x + sb * y) a b := by
  unfold blendInto
  rw [if_pos]
  simp [h]

theorem reflect_formula (a b : Vec) (k : ℚ) (h : a.length = b.length) :
    blendInto (List.replicate b.length 0) a b (1 + k) (-k)
      = vecAdd a (vecSMul k (vecSub a b)) := by
  rw [blendInto_replicate a b _ _ h]
  unfold vecAdd vecSMul vecSub
  rw [List.map_zipWith, zipWith_left_fuse]
  congr 1
  funext x y
  ring

theorem extend_formula (n : ℕ) (a r : Vec) (ke : ℚ)
    (h1 : a.length = n) (h2 : r.length = n) :
    blendInto (List.replicate n 0) a r (1 - ke) ke
      = vecAdd a (vecSMul ke (vecSub r a)) := by
  unfold blendInto
  rw [if_pos (by simp [h1, h2])]
  unfold vecAdd vecSMul vecSub
  rw [List.map_zipWith, zipWith_right_fuse]
  congr 1
  funext x y
  ring

theorem contract_formula (n : ℕ) (a b : Vec) (kc : ℚ)
    (h1 : a.length = n) (h2 : b.length = n) :
    blendInto (List.replicate n 0) a b (1 - kc) kc
      = vecAdd (vecSMul (1 - kc) a) (vecSMul kc b) := by
  unfold blendInto
  rw [if_pos (by simp [h1, h2])]
  unfold vecAdd vecSMul
  rw [List.zipWith_map]

theorem length_vecAdd_smul_sub (a b : Vec) (k : ℚ) (h : a.length = b.length) :
    (vecAdd a (vecSMul k (vecSub a b))).length = b.length := by
  simp [vecAdd, vecSMul, vecSub, h]

theorem length_filter_range_getD (l : List Vertex) (p : Vertex → Bool) :
    ((List.range l.length).filter (fun j => p (l.getD j default))).length
      = (l.filter p).length := by
  induction l with
  | nil => simp
  | cons x xs ih =>
    rw [List.length_cons, List.range_succ_eq_map, List.filter_cons]
    have hmap : List.filter (fun j => p ((x :: xs).getD j default))
        (List.map Nat.succ (List.range xs.length))
        = List.map Nat.succ
            (List.filter (fun j => p (xs.getD j default)) (List.range xs.length)) := by
      rw [List.filter_map]
      congr 1
    simp only [List.getD_cons_zero, List.filter_cons]
    rw [hmap]
    by_cases hp : p x = true
    · rw [if_pos hp, if_pos hp]
      simp only [List.length_cons, List.length_map]
      rw [ih]
    · rw [if_neg hp, if_neg hp]
      simp only [List.length_map]
      exact ih

/-! ### Spec-side candidate points (the formulas of spec section 4.3) -/

/-- Reflected point `xRefl = xMid + kReflect*(xMid - xHigh)` for the
target vertex `i`. -/
def reflPoint (m : Minimizer) (i : ℕ) (xMid : Vec) : Vec :=
  vecAdd xMid (vecSMul m.Kreflect (vecSub xMid (m.Vertices.getD i default).X))

/-- Extension point `xExt = xMid + kExtend*(xRefl - xMid)`. -/
def extPoint (m : Minimizer) (i : ℕ) (xMid : Vec) : Vec :=
  vecAdd xMid (vecSMul m.Kextend (vecSub (reflPoint m i xMid) xMid))

/-- Contraction point `xCon = (1-kContract)*xMid + kContract*xHigh`. -/
def conPoint (m : Minimizer) (i : ℕ) (xMid : Vec) : Vec :=
  vecAdd (vecSMul (1 - m.Kcontract) xMid)
    (vecSMul m.Kcontract (m.Vertices.getD i default).X)

/-- C1: in the vertex-replacement heuristic, with best value `fMin`,
centroid `xMid` and target vertex `(xHigh, fHigh)`, the reflected point
is `xRefl = xMid + kReflect*(xMid - xHigh)`; whenever `fRefl < fMin`
the extension point `xExt = xMid + kExtend*(xRefl - xMid)` is
evaluated, the vertex is replaced by `(xExt, fExt)` if `fExt < fRefl`
and by `(xRefl, fRefl)` otherwise, and in this branch the function
always accepts (returns `true`), consuming two evaluations. -/
theorem claim1_reflect_extend (m : Minimizer) (i : ℕ) (xMid : Vec)
    (hi : i < m.Vertices.length)
    (hlen : xMid.length = (m.Vertices.getD i default).X.length)
    (hrefl : m.F (reflPoint m i xMid) < (m.Vertices.getD 0 default).F) :
    replaceVertex m i xMid =
      (m.Vertices.set i
        (if m.F (extPoint m i xMid) < m.F (reflPoint m i xMid)
         then ⟨extPoint m i xMid, m.F (extPoint m i xMid)⟩
         else ⟨reflPoint m i xMid, m.F (reflPoint m i xMid)⟩),
       true, 2) := by
  have hr : blendInto (List.replicate (m.Vertices.getD i default).X.length 0)
      xMid (m.Vertices.getD i default).X (1 + m.Kreflect) (-m.Kreflect)
        = reflPoint m i xMid :=
    reflect_formula _ _ _ hlen
  have hreflLen : (reflPoint m i xMid).length
      = (m.Vertices.getD i default).X.length :=
    length_vecAdd_smul_sub _ _ _ hlen
  have he : blendInto (List.replicate (m.Vertices.getD i default).X.length 0)
      xMid (reflPoint m i xMid) (1 - m.Kextend) m.Kextend
        = extPoint m i xMid :=
    extend_formula _ _ _ _ hlen hreflLen
  simp only [replaceVertex, hr, he]
  rw [if_pos hrefl]
  by_cases hfe : m.F (extPoint m i xMid) < m.F (reflPoint m i xMid)
  · rw [if_pos hfe, if_pos hfe]
  · rw [if_neg hfe, if_neg hfe]

/-- Concrete instantiation of `claim1_reflect_extend`: a 1-dimensional
minimizer with the default coefficients and objective `x^2`. -/
def cm1 : Minimizer :=
  { NewMinimizer (fun v => v.getD 0 0 * v.getD 0 0) with
      Vertices := [⟨[0], 5⟩, ⟨[2], 9⟩] }

/-- Witness for C1: at `cm1`, slot 1, centroid `[0]`, the reflection
`[-2]` has value `4 < 5 = fMin`, the extension `[-4]` has value `16`,
so the original reflection is kept and the vertex is replaced. -/
theorem claim1_reflect_extend_witness :
    replaceVertex cm1 1 [0] = ([⟨[0], 5⟩, ⟨[-2], 4⟩], true, 2) :=
  (claim1_reflect_extend cm1 1 [0] (by decide) (by decide)
    (by decide)).trans (by decide)

/-- C2: when `fRefl >= fMin` the heuristic counts the simplex vertices
with `f > fRefl` over all `N+1` vertices; if that count is at most 1,
the contraction point `xCon = (1-kContract)*xMid + kContract*xHigh` is
evaluated and the vertex is replaced exactly when `fCon < fHigh`
(otherwise the call reports `accepted = false`, a normal outcome of the
total function, not an error); if the count exceeds 1 the vertex is
replaced by `(xRefl, fRefl)` outright. -/
theorem claim2_contract_or_keep_reflection (m : Minimizer) (i : ℕ) (xMid : Vec)
    (hi : i < m.Vertices.length)
    (hnv : m.Vertices.length = (m.Vertices.getD i default).X.length + 1)
    (hlen : xMid.length = (m.Vertices.getD i default).X.length)
    (hrefl : (m.Vertices.getD 0 default).F ≤ m.F (reflPoint m i xMid)) :
    ((m.Vertices.filter
        (fun v => decide (m.F (reflPoint m i xMid) < v.F))).length ≤ 1 →
      replaceVertex m i xMid =
        (if m.F (conPoint m i xMid) < (m.Vertices.getD i default).F
         then (m.Vertices.set i ⟨conPoint m i xMid, m.F (conPoint m i xMid)⟩,
               true, 2)
         else (m.Vertices, false, 2))) ∧
    (1 < (m.Vertices.filter
        (fun v => decide (m.F (reflPoint m i xMid) < v.F))).length →
      replaceVertex m i xMid =
        (m.Vertices.set i ⟨reflPoint m i xMid, m.F (reflPoint m i xMid)⟩,
         true, 1)) := by
  have hr : blendInto (List.replicate (m.Vertices.getD i default).X.length 0)
      xMid (m.Vertices.getD i default).X (1 + m.Kreflect) (-m.Kreflect)
        = reflPoint m i xMid :=
    reflect_formula _ _ _ hlen
  have hc : blendInto (List.replicate (m.Vertices.getD i default).X.length 0)
      xMid (m.Vertices.getD i default).X (1 - m.Kcontract) m.Kcontract
        = conPoint m i xMid :=
    contract_formula _ _ _ _ hlen rfl
  have hcount : ((List.range ((m.Vertices.getD i default).X.length + 1)).filter
      (fun j => decide (m.F (reflPoint m i xMid)
        < (m.Vertices.getD j default).F))).length
      = (m.Vertices.filter
          (fun v => decide (m.F (reflPoint m i xMid) < v.F))).length := by
    rw [← hnv]
    exact length_filter_range_getD m.Vertices
      (fun v => decide (m.F (reflPoint m i xMid) < v.F))
  constructor
  · intro hle
    simp only [replaceVertex, hr, hc]
    rw [if_neg (not_lt.mpr hrefl), if_pos (by rw [hcount]; exact hle)]
  · intro hgt
    simp only [replaceVertex, hr]
    rw [if_neg (not_lt.mpr hrefl), if_neg (by rw [hcount]; exact not_le.mpr hgt)]

/-- Concrete instantiation for C2: objective `x^2`, two vertices. -/
def cm2 : Minimizer :=
  { NewMinimizer (fun v => v.getD 0 0 * v.getD 0 0) with
      Vertices := [⟨[0], 0⟩, ⟨[4], 10⟩] }

/-- Witness for C2: at `cm2`, slot 1, centroid `[0]`, the reflection
`[-4]` has value `16 >= 0 = fMin`, no vertex value exceeds `16`, so the
contraction `[2]` with value `4 < 10 = fHigh` is accepted. -/
theorem claim2_contract_or_keep_reflection_witness :
    replaceVertex cm2 1 [0] = ([⟨[0], 0⟩, ⟨[2], 4⟩], true, 2) :=
  (((claim2_contract_or_keep_reflection cm2 1 [0] (by decide) (by decide)
    (by decide) (by decide)).1 (by decide)).trans (by decide))

/-- Scalar characterization of the source's tolerant comparison with
the positive denominator cleared: the test passes exactly when
`2*|a-b| <= tol*(|a|+|b|+1)`. -/
theorem approxEquals_iff (a b tol : ℚ) :
    approxEquals a b tol = true ↔ 2 * |a - b| ≤ tol * (|a| + |b| + 1) := by
  unfold approxEquals
  rw [decide_eq_true_iff]
  have hpos : (0 : ℚ) < (1/2) * (|a| + |b| + 1) := by positivity
  rw [div_le_iff₀ hpos]
  constructor <;> intro h <;> nlinarith [h]

/-- C8 counterexample: at `a = 1`, `b = 0`, `tol = 7/10` the source
test `approxEquals` rejects while the spec's stated criterion
`|a-b| / (0.5*(|a|+|b|) + 1) <= tol` holds, so the claimed "exactly
when" equivalence is false. -/
theorem claim8_counterexample :
    ¬ (approxEquals 1 0 (7/10) = true ↔
        |(1 : ℚ) - 0| / ((1/2) * (|(1 : ℚ)| + |(0 : ℚ)|) + 1) ≤ 7/10) := by
  decide

/-- C8 amended: the tolerant test of the source returns true exactly
when `|a-b| / (0.5*(|a|+|b|+1)) <= tol` (equivalently, clearing the
positive denominator, `2*|a-b| <= tol*(|a|+|b|+1)`); the vector test
applies that criterion elementwise and vectors of different lengths are
never approximately equal. -/
theorem claim8_amended (a b tol : ℚ) :
    (approxEquals a b tol = true ↔ 2 * |a - b| ≤ tol * (|a| + |b| + 1)) ∧
    (∀ u v : Vec,
      (vecApproxEquals u v tol = true ↔
        (u.length = v.length ∧ ∀ i, i < u.length →
          2 * |u.getD i 0 - v.getD i 0|
            ≤ tol * (|u.getD i 0| + |v.getD i 0| + 1)))) := by
  refine ⟨approxEquals_iff a b tol, fun u v => ?_⟩
  unfold vecApproxEquals
  by_cases h : u.length = v.length
  · rw [if_pos h, List.all_eq_true]
    constructor
    · intro hall
      refine ⟨h, fun i hilt => ?_⟩
      have := hall i (List.mem_range.mpr hilt)
      exact (approxEquals_iff _ _ tol).mp this
    · rintro ⟨-, hall⟩ i hi
      exact (approxEquals_iff _ _ tol).mpr (hall i (List.mem_range.mp hi))
  · rw [if_neg h]
    simp only [Bool.false_eq_true, false_iff]
    rintro ⟨hlen, -⟩
    exact h hlen

/-- Witness instantiating `claim8_amended` at concrete values:
`approxEquals 3 4 1` accepts since `2*|3-4| = 2 <= 1*(3+4+1) = 8`, and
the vector test rejects vectors of different lengths. -/
theorem claim8_amended_witness :
    approxEquals 3 4 1 = true ∧ vecApproxEquals [0] [0, 0] 1 = false := by
  constructor
  · exact (claim8_amended 3 4 1).1.mpr (by decide)
  · have h := ((claim8_amended 3 4 1).2 [0] [0, 0])
    by_contra hb
    have : vecApproxEquals [0] [0, 0] 1 = true := by
      revert hb
      cases hhh : vecApproxEquals [0] [0, 0] 1 <;> simp [hhh]
    exact absurd (h.mp this).1 (by decide)

/-! ### Sorting facts -/

theorem sortSimplex_sorted (l : List Vertex) : SortedByF (sortSimplex l) := by
  unfold SortedByF sortSimplex
  exact List.sorted_insertionSort (fun a b : Vertex => a.F ≤ b.F) l

theorem sortSimplex_perm (l : List Vertex) : (sortSimplex l).Perm l := by
  unfold sortSimplex
  exact List.perm_insertionSort (fun a b : Vertex => a.F ≤ b.F) l

theorem sortSimplex_length (l : List Vertex) :
    (sortSimplex l).length = l.length := by
  unfold sortSimplex
  exact List.length_insertionSort (fun a b : Vertex => a.F ≤ b.F) l

/-- C3: `MakeSimplexAboutPoint` fails exactly when `N = 0`, the step
sizes and the start point differ in length, or some step-size component
is zero; on success it returns exactly `N+1` vertices — the vertex at
`x0` plus one per single-axis perturbation — sorted ascending by
objective value, and consumes exactly `N+1` evaluations. -/
theorem claim3_buildSimplex (f : Vec → ℚ) (x0 dx : Vec) :
    ((∃ e, MakeSimplexAboutPoint f x0 dx = .error e) ↔
      (x0.length = 0 ∨ dx.length ≠ x0.length ∨ ∃ d ∈ dx, d = 0)) ∧
    (∀ smplx nfe, MakeSimplexAboutPoint f x0 dx = .ok (smplx, nfe) →
      smplx.length = x0.length + 1 ∧
      nfe = x0.length + 1 ∧
      SortedByF smplx ∧
      smplx.Perm ((⟨x0, f x0⟩ : Vertex) ::
        (List.range x0.length).map
          (fun i => let x1 := perturb x0 dx i; (⟨x1, f x1⟩ : Vertex)))) := by
  by_cases h0 : x0.length = 0
  · constructor
    · simp [MakeSimplexAboutPoint, h0]
    · intro smplx nfe hok
      simp [MakeSimplexAboutPoint, h0] at hok
  · by_cases hlen : x0.length ≠ dx.length
    · constructor
      · simp only [MakeSimplexAboutPoint, if_neg h0, if_pos hlen]
        constructor
        · intro _
          exact Or.inr (Or.inl (fun hdx => hlen hdx.symm))
        · intro _
          exact ⟨_, rfl⟩
      · intro smplx nfe hok
        simp only [MakeSimplexAboutPoint, if_neg h0, if_pos hlen] at hok
        exact Except.noConfusion hok
    · by_cases hz : dx.any (fun d => decide (d = 0)) = true
      · constructor
        · simp only [MakeSimplexAboutPoint, if_neg h0, if_neg hlen, if_pos hz]
          constructor
          · intro _
            refine Or.inr (Or.inr ?_)
            rcases List.any_eq_true.mp hz with ⟨d, hd, hdz⟩
            exact ⟨d, hd, of_decide_eq_true hdz⟩
          · intro _
            exact ⟨_, rfl⟩
        · intro smplx nfe hok
          simp only [MakeSimplexAboutPoint, if_neg h0, if_neg hlen, if_pos hz] at hok
          exact Except.noConfusion hok
      · constructor
        · simp only [MakeSimplexAboutPoint, if_neg h0, if_neg hlen, if_neg hz]
          constructor
          · rintro ⟨e, he⟩
            exact absurd he (by simp)
          · rintro (h | h | ⟨d, hd, hdz⟩)
            · exact absurd h h0
            · exact absurd rfl (by push_neg at hlen; rw [hlen] at h; exact h)
            · exact absurd (List.any_eq_true.mpr ⟨d, hd, decide_eq_true hdz⟩) hz
        · intro smplx nfe hok
          simp only [MakeSimplexAboutPoint, if_neg h0, if_neg hlen, if_neg hz,
            Except.ok.injEq, Prod.mk.injEq] at hok
          obtain ⟨hs, hn⟩ := hok
          subst hs hn
          refine ⟨?_, rfl, sortSimplex_sorted _, sortSimplex_perm _⟩
          rw [sortSimplex_length]
          simp

/-- Witness for C3: a 2-dimensional construction with objective
`x + y`, start `[0, 0]`, steps `[1, 2]`, giving three sorted vertices
and three evaluations. -/
theorem claim3_buildSimplex_witness :
    MakeSimplexAboutPoint (fun v => v.getD 0 0 + v.getD 1 0) [0, 0] [1, 2]
      = .ok ([⟨[0, 0], 0⟩, ⟨[1, 0], 1⟩, ⟨[0, 2], 2⟩], 3) ∧
    SortedByF [⟨[0, 0], 0⟩, ⟨[1, 0], 1⟩, ⟨[0, 2], 2⟩] := by
  refine ⟨by decide, ?_⟩
  exact ((claim3_buildSimplex (fun v => v.getD 0 0 + v.getD 1 0) [0, 0] [1, 2]).2
    [⟨[0, 0], 0⟩, ⟨[1, 0], 1⟩, ⟨[0, 2], 2⟩] 3 (by decide)).2.2.1

/-- Elementwise description of `Centroid`'s accumulation loop: starting
from `init`, folding `addInto` over vertices of uniform dimension `n`
yields the componentwise sums and the sum of the objective values. -/
theorem foldl_addInto_spec (vs : List Vertex) (init : Vertex) (n : ℕ)
    (hinit : init.X.length = n) (hall : ∀ v ∈ vs, v.X.length = n) :
    (vs.foldl (fun acc v => (⟨addInto acc.X v.X, acc.F + v.F⟩ : Vertex)) init).X.length = n ∧
    (∀ j, j < n →
      (vs.foldl (fun acc v => (⟨addInto acc.X v.X, acc.F + v.F⟩ : Vertex)) init).X.getD j 0
        = init.X.getD j 0 + (vs.map (fun v => v.X.getD j 0)).sum) ∧
    (vs.foldl (fun acc v => (⟨addInto acc.X v.X, acc.F + v.F⟩ : Vertex)) init).F
        = init.F + (vs.map (fun v => v.F)).sum := by
  induction vs generalizing init with
  | nil => simp [hinit]
  | cons v vs ih =>
    have hv : v.X.length = n := hall v (List.mem_cons_self v vs)
    have hstep : (addInto init.X v.X).length = n := by
      unfold addInto
      rw [if_pos (by rw [hinit, hv])]
      simp [hinit, hv]
    have hcomp : ∀ j, j < n →
        (addInto init.X v.X).getD j 0 = init.X.getD j 0 + v.X.getD j 0 := by
      intro j hj
      unfold addInto
      rw [if_pos (by rw [hinit, hv])]
      rw [List.getD_eq_getElem _ _ (by simp [hinit, hv]; omega),
        List.getElem_zipWith,
        ← List.getD_eq_getElem init.X 0 (by omega),
        ← List.getD_eq_getElem v.X 0 (by omega)]
    obtain ⟨ih1, ih2, ih3⟩ := ih (⟨addInto init.X v.X, init.F + v.F⟩ : Vertex)
      hstep (fun w hw => hall w (List.mem_cons_of_mem v hw))
    refine ⟨ih1, ?_, ?_⟩
    · intro j hj
      rw [List.foldl_cons, ih2 j hj]
      simp only [hcomp j hj, List.map_cons, List.sum_cons]
      ring
    · rw [List.foldl_cons, ih3]
      simp only [List.map_cons, List.sum_cons]
      ring

/-- C4 counterexample: at `va = [⟨[2], 4⟩]`, `p = -1` the claim asserts
a returned mean vertex (`nv = 1 ≠ 0` and `k = 2 > 0`, so not a failure
case), but the Go loop reads `va[1]` out of range and the call aborts
with a runtime panic, returning nothing at all. -/
theorem claim4_centroid_counterexample :
    Centroid [⟨[2], 4⟩] (-1) = RunResult.aborted ∧
    ¬ ∃ c, Centroid [⟨[2], 4⟩] (-1) = RunResult.value (Except.ok c) := by
  have h : Centroid [⟨[2], 4⟩] (-1) = RunResult.aborted := by decide
  refine ⟨h, ?_⟩
  rintro ⟨c, hc⟩
  rw [h] at hc
  exact RunResult.noConfusion hc

/-- C4 amended: `Centroid` fails with the DegenerateSimplex error
exactly when the vertex array is empty or `k = nv - p <= 0` (in
particular whenever `p >= N+1`); when `nv >= 1` and `p < 0` the
accumulation loop runs past the end of the array and the call aborts
with an index-out-of-range runtime panic instead of returning; in all
remaining cases, for a uniform-dimension simplex, it returns the
vertex whose point is the elementwise mean of the first (best) `k`
vertices' points and whose objective value is the mean of their
values. -/
theorem claim4_centroid_amended (va : List Vertex) (p : ℤ) :
    ((∃ e, Centroid va p = .value (.error e)) ↔
      (va.length = 0 ∨ (va.length : ℤ) - p ≤ 0)) ∧
    (Centroid va p = .aborted ↔ (va.length ≠ 0 ∧ p < 0)) ∧
    (∀ c, Centroid va p = .value (.ok c) →
      (∀ v ∈ va.take ((va.length : ℤ) - p).toNat,
          v.X.length = (va.headI).X.length) →
      c.X.length = (va.headI).X.length ∧
      (∀ j, j < (va.headI).X.length →
        c.X.getD j 0 =
          ((va.take ((va.length : ℤ) - p).toNat).map
            (fun v => v.X.getD j 0)).sum / (((va.length : ℤ) - p : ℤ) : ℚ)) ∧
      c.F = ((va.take ((va.length : ℤ) - p).toNat).map (fun v => v.F)).sum
          / (((va.length : ℤ) - p : ℤ) : ℚ)) := by
  by_cases h0 : va.length = 0
  · refine ⟨?_, ?_, ?_⟩
    · simp [Centroid, h0]
    · simp [Centroid, h0]
    · intro c hok
      simp [Centroid, h0] at hok
  · by_cases hk : (va.length : ℤ) - p ≤ 0
    · refine ⟨?_, ?_, ?_⟩
      · simp only [Centroid, if_neg h0, if_pos hk]
        exact ⟨fun _ => Or.inr hk, fun _ => ⟨_, rfl⟩⟩
      · simp only [Centroid, if_neg h0, if_pos hk]
        constructor
        · intro hab
          exact RunResult.noConfusion hab
        · rintro ⟨-, hp⟩
          exact absurd hk (by omega)
      · intro c hok
        simp only [Centroid, if_neg h0, if_pos hk,
          RunResult.value.injEq] at hok
        exact Except.noConfusion hok
    · by_cases hcr : (va.length : ℤ) < (va.length : ℤ) - p
      · refine ⟨?_, ?_, ?_⟩
        · simp only [Centroid, if_neg h0, if_neg hk, if_pos hcr]
          constructor
          · rintro ⟨e, he⟩
            exact RunResult.noConfusion he
          · rintro (h | h)
            · exact absurd h h0
            · exact absurd h hk
        · simp only [Centroid, if_neg h0, if_neg hk, if_pos hcr]
          exact ⟨fun _ => ⟨h0, by omega⟩, fun _ => trivial⟩
        · intro c hok
          simp only [Centroid, if_neg h0, if_neg hk, if_pos hcr] at hok
          exact RunResult.noConfusion hok
      · refine ⟨?_, ?_, ?_⟩
        · simp only [Centroid, if_neg h0, if_neg hk, if_neg hcr]
          constructor
          · rintro ⟨e, he⟩
            simp at he
          · rintro (h | h)
            · exact absurd h h0
            · exact absurd h hk
        · simp only [Centroid, if_neg h0, if_neg hk, if_neg hcr]
          constructor
          · intro hab
            exact RunResult.noConfusion hab
          · rintro ⟨-, hp⟩
            exact absurd hcr (by omega)
        · intro c hok hall
          simp only [Centroid, if_neg h0, if_neg hk, if_neg hcr,
            RunResult.value.injEq, Except.ok.injEq] at hok
          subst hok
          obtain ⟨h1, h2, h3⟩ := foldl_addInto_spec
            (va.take ((va.length : ℤ) - p).toNat)
            (⟨List.replicate (va.headI).X.length 0, 0⟩ : Vertex)
            (va.headI).X.length (by simp) hall
          have hrep : ∀ j, j < (va.headI).X.length →
              (List.replicate (va.headI).X.length (0 : ℚ)).getD j 0 = 0 := by
            intro j hj
            rw [List.getD_eq_getElem _ _ (by simpa using hj)]
            exact List.getElem_replicate 0 (by simpa using hj)
          refine ⟨by simpa using h1, ?_, ?_⟩
          · intro j hj
            rw [List.getD_eq_getElem _ 0 (by simp [h1]; omega), List.getElem_map,
              ← List.getD_eq_getElem _ 0 (by rw [h1]; exact hj), h2 j hj]
            simp only [hrep j hj, zero_add]
            rw [mul_one_div]
          · simp only [h3, zero_add]
            rw [mul_one_div]

/-- Witness for C4's amended theorem: centroid of the first
`k = 2 - 1 = 1` vertex of a two-vertex array is that vertex itself
(mean over a singleton). -/
theorem claim4_centroid_amended_witness :
    Centroid [⟨[1, 2], 3⟩, ⟨[3, 4], 5⟩] 1 = .value (.ok ⟨[1, 2], 3⟩) ∧
    (⟨[1, 2], 3⟩ : Vertex).X.length = 2 := by
  refine ⟨by decide, ?_⟩
  have h := (claim4_centroid_amended [⟨[1, 2], 3⟩, ⟨[3, 4], 5⟩] 1).2.2 ⟨[1, 2], 3⟩
    (by decide) (by decide)
  exact h.1.trans (by decide)

theorem zipWith_outer_fuse (g f : ℚ → ℚ → ℚ) :
    ∀ (a b : Vec),
      List.zipWith g (List.zipWith f a b) a
        = List.zipWith (fun x y => g (f x y) x) a b := by
  intro a
  induction a with
  | nil => intro b; simp
  | cons x xs ih =>
    intro b
    cases b with
    | nil => simp
    | cons y ys => simp [ih]

theorem sqNorm_smul (s : ℚ) (w : Vec) :
    sqNorm (vecSMul s w) = s * s * sqNorm w := by
  unfold sqNorm vecSMul
  rw [List.map_map]
  have hfun : ((fun x => x * x) ∘ fun x : ℚ => s * x)
      = fun x : ℚ => s * s * (x * x) := by
    funext x
    simp only [Function.comp_apply]
    ring
  rw [hfun, List.sum_map_mul_left]

theorem getD_mapIdx (l : List Vertex) (f : ℕ → Vertex → Vertex) (i : ℕ)
    (h : i < l.length) (d : Vertex) :
    (l.mapIdx f).getD i d = f i (l.getD i d) := by
  rw [List.getD_eq_getElem _ _ (by simpa using h), List.getElem_mapIdx,
    List.getD_eq_getElem _ _ h]

theorem blend_half_sub (xb xv : Vec) (h : xv.length = xb.length) :
    vecSub (blendInto xv xb xv (1/2) (1/2)) xb
      = vecSMul (1/2) (vecSub xv xb) := by
  unfold blendInto
  rw [if_pos ⟨h, rfl⟩]
  unfold vecSub vecSMul
  rw [zipWith_outer_fuse (fun x y => x - y)
    (fun x y => (1/2) * x + (1/2) * y) xb xv]
  rw [List.map_zipWith, List.zipWith_comm (fun x y => (1/2) * (x - y)) xv xb]
  congr 1
  funext x y
  ring

theorem replaceVertex_length (m : Minimizer) (i : ℕ) (x : Vec) :
    (replaceVertex m i x).1.length = m.Vertices.length := by
  simp only [replaceVertex]
  repeat' split
  all_goals simp

theorem replaceVertex_nfe_pos (m : Minimizer) (i : ℕ) (x : Vec) :
    1 ≤ (replaceVertex m i x).2.2 := by
  simp only [replaceVertex]
  repeat' split
  all_goals simp

/-- The sequential replacement loop changes only `Vertices` (keeping
its length) and `NFEvaluations` (adding at least one evaluation per
attempt); every configuration field and the restart counter are kept. -/
theorem foldl_replStep_preserves (x : Vec) (nv : ℕ) (l : List ℕ)
    (acc : Minimizer × Bool) :
    ((l.foldl (replStep x nv) acc).1.F = acc.1.F ∧
     (l.foldl (replStep x nv) acc).1.P = acc.1.P ∧
     (l.foldl (replStep x nv) acc).1.Steps = acc.1.Steps ∧
     (l.foldl (replStep x nv) acc).1.NFEvaluationsMax = acc.1.NFEvaluationsMax ∧
     (l.foldl (replStep x nv) acc).1.Nrestarts = acc.1.Nrestarts ∧
     (l.foldl (replStep x nv) acc).1.Kreflect = acc.1.Kreflect ∧
     (l.foldl (replStep x nv) acc).1.Kextend = acc.1.Kextend ∧
     (l.foldl (replStep x nv) acc).1.Kcontract = acc.1.Kcontract ∧
     (l.foldl (replStep x nv) acc).1.Tol = acc.1.Tol ∧
     (l.foldl (replStep x nv) acc).1.Vertices.length
       = acc.1.Vertices.length) ∧
    acc.1.NFEvaluations + l.length
      ≤ (l.foldl (replStep x nv) acc).1.NFEvaluations := by
  induction l generalizing acc with
  | nil => simp
  | cons a l ih =>
    rw [List.foldl_cons]
    obtain ⟨hfields, hnfe⟩ := ih (replStep x nv acc a)
    have hlen : (replStep x nv acc a).1.Vertices.length
        = acc.1.Vertices.length := replaceVertex_length acc.1 (nv - 1 - a) x
    have hpos : acc.1.NFEvaluations + 1 ≤ (replStep x nv acc a).1.NFEvaluations := by
      have h1 := replaceVertex_nfe_pos acc.1 (nv - 1 - a) x
      show acc.1.NFEvaluations + 1
        ≤ acc.1.NFEvaluations + ((replaceVertex acc.1 (nv - 1 - a) x).2.2 : ℤ)
      omega
    refine ⟨?_, ?_⟩
    · exact ⟨hfields.1, hfields.2.1, hfields.2.2.1, hfields.2.2.2.1,
        hfields.2.2.2.2.1, hfields.2.2.2.2.2.1, hfields.2.2.2.2.2.2.1,
        hfields.2.2.2.2.2.2.2.1, hfields.2.2.2.2.2.2.2.2.1,
        hfields.2.2.2.2.2.2.2.2.2.trans hlen⟩
    · have := hnfe
      simp only [List.length_cons]
      omega

/-- Shape of a shrunken non-best vertex: the blend of its old point
halfway toward the best point, re-evaluated. -/
theorem contract_vertex_spec (m : Minimizer) (i : ℕ) (h1 : 1 ≤ i)
    (hi : i < m.Vertices.length) :
    (contractAboutBestPoint m).Vertices.getD i default =
      (⟨blendInto (m.Vertices.getD i default).X
          (m.Vertices.getD 0 default).X
          (m.Vertices.getD i default).X (1/2) (1/2),
        m.F (blendInto (m.Vertices.getD i default).X
          (m.Vertices.getD 0 default).X
          (m.Vertices.getD i default).X (1/2) (1/2))⟩ : Vertex) := by
  simp only [contractAboutBestPoint]
  rw [getD_mapIdx _ _ i hi]
  rw [if_neg (by omega)]

/-- C5: the shrink-toward-best step moves every non-best vertex to
`0.5*(xBest + x_i)` and re-evaluates its objective value, so the
difference to the best point is exactly halved componentwise and the
squared Euclidean distance is quartered; the best vertex is untouched,
the shrink is a total operation on every state (it always succeeds),
and when an iteration accepts none of its replacement attempts the
step applies exactly this shrink and increments the restart counter by
one. -/
theorem claim5_shrink_halves (m : Minimizer) :
    (∀ i, 1 ≤ i → i < m.Vertices.length →
      (m.Vertices.getD i default).X.length
        = (m.Vertices.getD 0 default).X.length →
      vecSub ((contractAboutBestPoint m).Vertices.getD i default).X
          (m.Vertices.getD 0 default).X
        = vecSMul (1/2)
            (vecSub (m.Vertices.getD i default).X
              (m.Vertices.getD 0 default).X) ∧
      sqNorm (vecSub ((contractAboutBestPoint m).Vertices.getD i default).X
          (m.Vertices.getD 0 default).X)
        = (1/4) * sqNorm (vecSub (m.Vertices.getD i default).X
            (m.Vertices.getD 0 default).X) ∧
      ((contractAboutBestPoint m).Vertices.getD i default).F
        = m.F (((contractAboutBestPoint m).Vertices.getD i default).X)) ∧
    (contractAboutBestPoint m).Vertices.getD 0 default
        = m.Vertices.getD 0 default ∧
    (contractAboutBestPoint m).Vertices.length = m.Vertices.length ∧
    (∀ vMid, Centroid m.Vertices m.P = .value (.ok vMid) →
      (attemptReplacements m vMid.X).2 = false →
      ∃ m2, takeOneStep m = .value (.ok m2) ∧
        m2.Nrestarts = m.Nrestarts + 1 ∧
        m2.Vertices = sortSimplex
          (contractAboutBestPoint (attemptReplacements m vMid.X).1).Vertices) := by
  refine ⟨?_, ?_, ?_, ?_⟩
  · intro i h1 hi hlen
    rw [contract_vertex_spec m i h1 hi]
    have hsub := blend_half_sub (m.Vertices.getD 0 default).X
      (m.Vertices.getD i default).X hlen
    refine ⟨hsub, ?_, rfl⟩
    rw [hsub, sqNorm_smul]
    norm_num
  · by_cases h0 : m.Vertices.length = 0
    · have : m.Vertices = [] := List.length_eq_zero.mp h0
      simp [contractAboutBestPoint, this]
    · simp only [contractAboutBestPoint]
      rw [getD_mapIdx _ _ 0 (by omega)]
      simp
  · simp [contractAboutBestPoint]
  · intro vMid hmid hfail
    refine ⟨{ contractAboutBestPoint (attemptReplacements m vMid.X).1 with
        Nrestarts :=
          (contractAboutBestPoint (attemptReplacements m vMid.X).1).Nrestarts + 1,
        Vertices := sortSimplex
          (contractAboutBestPoint (attemptReplacements m vMid.X).1).Vertices },
      ?_, ?_, rfl⟩
    · simp only [takeOneStep, hmid, hfail, Bool.false_eq_true, if_false]
    · show ((contractAboutBestPoint (attemptReplacements m vMid.X).1).Nrestarts + 1)
        = m.Nrestarts + 1
      have heq : (contractAboutBestPoint (attemptReplacements m vMid.X).1).Nrestarts
          = (attemptReplacements m vMid.X).1.Nrestarts := rfl
      rw [heq]
      have hpres := (foldl_replStep_preserves vMid.X m.Vertices.length
        (List.range m.P.toNat) (m, false)).1
      simp only [attemptReplacements]
      rw [hpres.2.2.2.2.1]

/-- Concrete instantiation for C5: objective `x^2`, a two-vertex
simplex in which the replacement attempt for the worst slot is
rejected, forcing a shrink. -/
def cm5 : Minimizer :=
  { NewMinimizer (fun v => v.getD 0 0 * v.getD 0 0) with
      Vertices := [⟨[0], 0⟩, ⟨[2], 1⟩] }

/-- Witness for C5: the shrunken non-best vertex of `cm5` lands halfway
toward the best point, and the failed iteration shrinks and bumps the
restart counter. -/
theorem claim5_shrink_halves_witness :
    (vecSub ((contractAboutBestPoint cm5).Vertices.getD 1 default).X
        (cm5.Vertices.getD 0 default).X
      = vecSMul (1/2) (vecSub (cm5.Vertices.getD 1 default).X
          (cm5.Vertices.getD 0 default).X)) ∧
    (∃ m2, takeOneStep cm5 = .value (.ok m2) ∧
      m2.Nrestarts = cm5.Nrestarts + 1 ∧
      m2.Vertices = sortSimplex
        (contractAboutBestPoint
          (attemptReplacements cm5 ((⟨[0], 0⟩ : Vertex).X)).1).Vertices) := by
  constructor
  · exact ((claim5_shrink_halves cm5).1 1 (by decide) (by decide) (by decide)).1
  · exact (claim5_shrink_halves cm5).2.2.2 ⟨[0], 0⟩ (by decide) (by decide)

theorem getD_set_self (l : List Vertex) (i : ℕ) (v d : Vertex) :
    (l.set i v).getD i d = if i < l.length then v else d := by
  by_cases h : i < l.length
  · rw [if_pos h, List.getD_eq_getElem _ _ (by simpa using h),
      List.getElem_set_self]
  · rw [if_neg h, List.getD_eq_default _ _ (by simp; omega)]

theorem getD_set_ne (l : List Vertex) (i j : ℕ) (hne : j ≠ i) (v d : Vertex) :
    (l.set i v).getD j d = l.getD j d := by
  by_cases hj : j < l.length
  · rw [List.getD_eq_getElem _ _ (by simpa using hj),
      List.getD_eq_getElem _ _ hj]
    exact List.getElem_set_ne (by omega) _
  · rw [List.getD_eq_default _ _ (by simp; omega),
      List.getD_eq_default _ _ (by omega)]

/-- Objective used for the C9 counterexample: a finite lookup table. -/
def cF9 : Vec → ℚ := fun v =>
  if v = [0, -4] then -5
  else if v = [0, -8] then 3
  else if v = [-4, 0] then 5
  else if v = [2, 0] then 50
  else 0

/-- State for the C9 counterexample: three vertices, two replacement
slots per iteration (`P = 2`), default coefficients. -/
def cm9 : Minimizer :=
  { NewMinimizer cF9 with
      Vertices := [⟨[0, 0], 0⟩, ⟨[4, 0], 10⟩, ⟨[0, 4], 20⟩], P := 2 }

/-- C9 counterexample: with the shared centroid `[0, 0]`, the first
candidate (slot 2) commits a replacement that touches only its own
slot, yet the second candidate's (slot 1) outcome flips from accepted
(on the pre-iteration state) to rejected (on the state the sequential
loop actually presents to it): the contract-gating count reads the
other candidate's slot, refuting the claimed independence. -/
theorem claim9_counterexample :
    ((replaceVertex cm9 2 [0, 0]).2.1 = true ∧
     (replaceVertex cm9 2 [0, 0]).1.getD 1 default
        = cm9.Vertices.getD 1 default ∧
     (replaceVertex cm9 2 [0, 0]).1.getD 0 default
        = cm9.Vertices.getD 0 default) ∧
    (replaceVertex cm9 1 [0, 0]).2.1 = true ∧
    (replaceVertex { cm9 with Vertices := (replaceVertex cm9 2 [0, 0]).1 }
        1 [0, 0]).2.1 = false := by
  decide

/-- C9 amended: a candidate replacement reads the shared centroid, the
coefficients, the objective, its own slot, and the objective values of
all vertices (the best value for the reflection test and every value
for the contract-gating count) — two states agreeing on those give the
same accepted flag, evaluation count and replacement vertex — and it
writes only its own slot.  Under the sequential loop a later
candidate's outcome may therefore depend on the committed f-value
changes of earlier candidates (see the counterexample), but on nothing
else. -/
theorem claim9_amended (m m' : Minimizer) (i : ℕ) (xMid : Vec)
    (hF : m.F = m'.F)
    (hKr : m.Kreflect = m'.Kreflect)
    (hKe : m.Kextend = m'.Kextend)
    (hKc : m.Kcontract = m'.Kcontract)
    (hfs : m.Vertices.map (fun v => v.F) = m'.Vertices.map (fun v => v.F))
    (hown : m.Vertices.getD i default = m'.Vertices.getD i default) :
    ((replaceVertex m i xMid).1.getD i default
        = (replaceVertex m' i xMid).1.getD i default ∧
     (replaceVertex m i xMid).2 = (replaceVertex m' i xMid).2) ∧
    (∀ j, j ≠ i → (replaceVertex m i xMid).1.getD j default
        = m.Vertices.getD j default) := by
  have hlen : m.Vertices.length = m'.Vertices.length := by
    have h := congrArg List.length hfs
    simpa using h
  have hFj : ∀ j, (m'.Vertices.getD j default).F
      = (m.Vertices.getD j default).F := by
    intro j
    by_cases hj : j < m.Vertices.length
    · have h := congrArg (fun l => l.getD j (0 : ℚ)) hfs
      simp only at h
      rw [List.getD_eq_getElem _ _ (by simp; exact hj),
        List.getD_eq_getElem _ _ (by simp; omega),
        List.getElem_map, List.getElem_map] at h
      rw [List.getD_eq_getElem _ _ hj, List.getD_eq_getElem _ _ (by omega)]
      exact h.symm
    · rw [List.getD_eq_default _ _ (by omega),
        List.getD_eq_default _ _ (by omega)]
  simp only [replaceVertex, ← hF, ← hKr, ← hKe, ← hKc, ← hown, hFj]
  repeat' split
  all_goals
    refine ⟨⟨?_, rfl⟩, ?_⟩
  all_goals
    try (intro j hj
         first
           | exact getD_set_ne _ _ _ hj _ _
           | rfl)
  all_goals
    first
      | (rw [getD_set_self, getD_set_self, hlen])
      | exact hown

/-- Witness for C9's amended theorem: at `cm9` itself the dependency
characterization yields that the slot-1 attempt leaves slots 0 and 2
untouched. -/
theorem claim9_amended_witness :
    (replaceVertex cm9 1 [0, 0]).1.getD 0 default
        = cm9.Vertices.getD 0 default ∧
    (replaceVertex cm9 1 [0, 0]).1.getD 2 default
        = cm9.Vertices.getD 2 default := by
  have h := claim9_amended cm9 cm9 1 [0, 0] rfl rfl rfl rfl rfl rfl
  exact ⟨h.2 0 (by decide), h.2 2 (by decide)⟩

/-! ### Sortedness invariant lemmas -/

theorem takeOneStep_ok_sorted (m m1 : Minimizer)
    (h : takeOneStep m = .value (.ok m1)) : SortedByF m1.Vertices := by
  simp only [takeOneStep] at h
  cases hc : Centroid m.Vertices m.P with
  | aborted =>
    rw [hc] at h
    exact RunResult.noConfusion h
  | value ev =>
    cases ev with
    | error e =>
      rw [hc] at h
      dsimp only at h
      simp at h
    | ok vMid =>
      rw [hc] at h
      dsimp only at h
      simp only [RunResult.value.injEq, Except.ok.injEq] at h
      rw [← h]
      exact sortSimplex_sorted _

theorem takeStepsAux_sorted (k : ℕ) : ∀ m : Minimizer,
    SortedByF m.Vertices →
    ∀ (m1 : Minimizer) (err : Option String),
      takeStepsAux k m = .value (m1, err) → SortedByF m1.Vertices := by
  induction k with
  | zero =>
    intro m hs m1 err h
    simp only [takeStepsAux, RunResult.value.injEq, Prod.mk.injEq] at h
    rw [← h.1]
    exact hs
  | succ k ih =>
    intro m hs m1 err h
    simp only [takeStepsAux] at h
    cases hc : takeOneStep m with
    | aborted =>
      rw [hc] at h
      exact RunResult.noConfusion h
    | value ev =>
      cases ev with
      | error e =>
        rw [hc] at h
        dsimp only at h
        simp only [RunResult.value.injEq, Prod.mk.injEq] at h
        rw [← h.1]
        exact hs
      | ok m2 =>
        rw [hc] at h
        dsimp only at h
        exact ih m2 (takeOneStep_ok_sorted m m2 hc) m1 err h

theorem takeSteps_sorted (m : Minimizer) (nsteps : ℤ)
    (hs : SortedByF m.Vertices) (m1 : Minimizer) (err : Option String)
    (h : TakeSteps m nsteps = .value (m1, err)) : SortedByF m1.Vertices :=
  takeStepsAux_sorted nsteps.toNat m hs m1 err h

theorem minimizeLoop_ok_sorted (fuel : ℕ) (m : Minimizer)
    (hs : SortedByF m.Vertices) (m1 : Minimizer)
    (h : minimizeLoop fuel m = some (.value (.ok m1))) :
    SortedByF m1.Vertices := by
  induction fuel generalizing m with
  | zero => exact Option.noConfusion h
  | succ fuel ih =>
    simp only [minimizeLoop] at h
    by_cases hlt : m.NFEvaluations < m.NFEvaluationsMax
    · rw [if_pos hlt] at h
      cases hts : TakeSteps m m.Steps with
      | aborted =>
        rw [hts] at h
        simp at h
      | value ts =>
        rw [hts] at h
        dsimp only at h
        have hs2 : SortedByF ts.1.Vertices :=
          takeSteps_sorted m m.Steps hs ts.1 ts.2 (by rw [hts])
        cases hstat : fStats ts.1.Vertices with
        | error e =>
          rw [hstat] at h
          simp at h
        | ok st =>
          rw [hstat] at h
          dsimp only at h
          by_cases hsd : sdevLtTol st.2 ts.1.Tol = true
          · rw [if_pos hsd] at h
            simp only [Option.some.injEq, RunResult.value.injEq,
              Except.ok.injEq] at h
            rw [← h]
            exact hs2
          · rw [if_neg hsd] at h
            exact ih _ hs2 h
    · rw [if_neg hlt] at h
      simp only [Option.some.injEq, RunResult.value.injEq,
        Except.ok.injEq] at h
      rw [← h]
      exact hs

instance (l : List Vertex) : Decidable (SortedByF l) :=
  inferInstanceAs (Decidable (List.Pairwise _ l))

theorem sorted_head_le (l : List Vertex) (hs : SortedByF l) :
    ∀ v ∈ l, (l.getD 0 default).F ≤ v.F := by
  intro v hv
  obtain ⟨j, hj, rfl⟩ := List.mem_iff_getElem.mp hv
  have h0 : 0 < l.length := by omega
  rw [List.getD_eq_getElem _ _ h0]
  rcases Nat.eq_zero_or_pos j with hj0 | hjpos
  · subst hj0
    exact le_refl _
  · exact (List.pairwise_iff_getElem.mp hs) 0 j h0 hj hjpos

theorem sorted_le_last (l : List Vertex) (hs : SortedByF l) :
    ∀ v ∈ l, v.F ≤ (l.getD (l.length - 1) default).F := by
  intro v hv
  obtain ⟨j, hj, rfl⟩ := List.mem_iff_getElem.mp hv
  have hlast : l.length - 1 < l.length := by omega
  rw [List.getD_eq_getElem _ _ hlast]
  rcases Nat.lt_or_ge j (l.length - 1) with hjlt | hjge
  · exact (List.pairwise_iff_getElem.mp hs) j (l.length - 1) hj hlast hjlt
  · have : j = l.length - 1 := by omega
    subst this
    exact le_refl _

theorem makeSimplex_ok_vertices (f : Vec → ℚ) (x0 dx : Vec)
    (smplx : List Vertex) (nfe : ℕ)
    (h : MakeSimplexAboutPoint f x0 dx = .ok (smplx, nfe)) :
    smplx = sortSimplex ((⟨x0, f x0⟩ : Vertex) ::
      (List.range x0.length).map
        (fun i => let x1 := perturb x0 dx i; (⟨x1, f x1⟩ : Vertex))) := by
  simp only [MakeSimplexAboutPoint] at h
  by_cases h0 : x0.length = 0
  · rw [if_pos h0] at h
    exact Except.noConfusion h
  · rw [if_neg h0] at h
    by_cases hl : x0.length ≠ dx.length
    · rw [if_pos hl] at h
      exact Except.noConfusion h
    · rw [if_neg hl] at h
      by_cases hz : dx.any (fun d => decide (d = 0)) = true
      · rw [if_pos hz] at h
        exact Except.noConfusion h
      · rw [if_neg hz] at h
        simp only [Except.ok.injEq, Prod.mk.injEq] at h
        exact h.1.symm

/-- C7: sortedness is an invariant of the simplex: it holds after
initial construction, after every iteration of the step loop and after
any batch of steps whatever their outcome, and on return from
minimization; in a sorted simplex index 0 holds the best (minimal)
objective value and the last index the worst. -/
theorem claim7_sorted_invariant :
    (∀ (f : Vec → ℚ) (x0 dx : Vec) (smplx : List Vertex) (nfe : ℕ),
        MakeSimplexAboutPoint f x0 dx = .ok (smplx, nfe) → SortedByF smplx) ∧
    (∀ m m1 : Minimizer, takeOneStep m = .value (.ok m1) →
        SortedByF m1.Vertices) ∧
    (∀ (m : Minimizer) (nsteps : ℤ), SortedByF m.Vertices →
        ∀ (m1 : Minimizer) (err : Option String),
          TakeSteps m nsteps = .value (m1, err) → SortedByF m1.Vertices) ∧
    (∀ (fuel : ℕ) (m : Minimizer) (x dx : Vec) (m1 : Minimizer),
        MinimizeFromPoint fuel m x dx = some (.value (.ok m1)) →
        SortedByF m1.Vertices) ∧
    (∀ l : List Vertex, SortedByF l →
      (∀ v ∈ l, (l.getD 0 default).F ≤ v.F) ∧
      (∀ v ∈ l, v.F ≤ (l.getD (l.length - 1) default).F)) := by
  refine ⟨?_, takeOneStep_ok_sorted, takeSteps_sorted, ?_, ?_⟩
  · intro f x0 dx smplx nfe h
    rw [makeSimplex_ok_vertices f x0 dx smplx nfe h]
    exact sortSimplex_sorted _
  · intro fuel m x dx m1 h
    simp only [MinimizeFromPoint] at h
    cases hc : MakeSimplexAboutPoint m.F x dx with
    | error e =>
      rw [hc] at h
      simp at h
    | ok r =>
      rw [hc] at h
      dsimp only at h
      refine minimizeLoop_ok_sorted fuel _ ?_ m1 h
      show SortedByF r.1
      rw [makeSimplex_ok_vertices m.F x dx r.1 r.2 (by rw [hc])]
      exact sortSimplex_sorted _
  · intro l hs
    exact ⟨sorted_head_le l hs, sorted_le_last l hs⟩

/-- Witness for C7: a concretely constructed initial simplex for the
objective `x^2` comes out sorted. -/
theorem claim7_sorted_invariant_witness :
    SortedByF [⟨[1], 1⟩, ⟨[3], 9⟩] :=
  claim7_sorted_invariant.1 (fun v => v.getD 0 0 * v.getD 0 0) [1] [2]
    [⟨[1], 1⟩, ⟨[3], 9⟩] 2 (by decide)

theorem centroid_ok_facts (va : List Vertex) (p : ℤ) (v : Vertex)
    (h : Centroid va p = .value (.ok v)) :
    va.length ≠ 0 ∧ ¬((va.length : ℤ) - p ≤ 0) := by
  by_cases h0 : va.length = 0
  · simp [Centroid, h0] at h
  · by_cases hk : (va.length : ℤ) - p ≤ 0
    · simp [Centroid, h0, hk] at h
    · exact ⟨h0, hk⟩

theorem takeOneStep_ok_of (m : Minimizer) (h0 : m.Vertices.length ≠ 0)
    (hk : ¬((m.Vertices.length : ℤ) - m.P ≤ 0)) (hp : 0 ≤ m.P) :
    ∃ m1, takeOneStep m = .value (.ok m1) := by
  have hcr : ¬((m.Vertices.length : ℤ)
      < (m.Vertices.length : ℤ) - m.P) := by omega
  have hcen : ∃ v, Centroid m.Vertices m.P = .value (.ok v) := by
    simp only [Centroid, if_neg h0, if_neg hk, if_neg hcr]
    exact ⟨_, rfl⟩
  obtain ⟨v, hv⟩ := hcen
  simp only [takeOneStep, hv]
  exact ⟨_, rfl⟩

/-- One iteration keeps every configuration field and the simplex size,
and never decreases the evaluation counter; with at least one
replacement slot it consumes at least one evaluation. -/
theorem takeOneStep_ok_fields (m m1 : Minimizer)
    (h : takeOneStep m = .value (.ok m1)) :
    m1.F = m.F ∧ m1.P = m.P ∧ m1.Steps = m.Steps ∧
    m1.NFEvaluationsMax = m.NFEvaluationsMax ∧
    m1.Kreflect = m.Kreflect ∧ m1.Kextend = m.Kextend ∧
    m1.Kcontract = m.Kcontract ∧ m1.Tol = m.Tol ∧
    m1.Vertices.length = m.Vertices.length ∧
    m.NFEvaluations ≤ m1.NFEvaluations ∧
    (1 ≤ m.P → m.NFEvaluations + 1 ≤ m1.NFEvaluations) := by
  simp only [takeOneStep] at h
  cases hc : Centroid m.Vertices m.P with
  | aborted =>
    rw [hc] at h
    exact RunResult.noConfusion h
  | value ev =>
    cases ev with
    | error e =>
      rw [hc] at h
      dsimp only at h
      simp at h
    | ok vMid =>
      have hnv0 : m.Vertices.length ≠ 0 := (centroid_ok_facts _ _ _ hc).1
      rw [hc] at h
      dsimp only at h
      simp only [RunResult.value.injEq, Except.ok.injEq] at h
      subst h
      obtain ⟨⟨hF, hP2, hSteps2, hMax2, hNr, hKr, hKe, hKc, hTol, hLen⟩, hNfe⟩ :=
        foldl_replStep_preserves vMid.X m.Vertices.length
          (List.range m.P.toNat) (m, false)
      have hRlen : (List.range m.P.toNat).length = m.P.toNat := List.length_range _
      rw [hRlen] at hNfe
      have hbridge : attemptReplacements m vMid.X
          = (List.range m.P.toNat).foldl (replStep vMid.X m.Vertices.length)
              (m, false) := rfl
      rw [← hbridge] at hF hP2 hSteps2 hMax2 hKr hKe hKc hTol hLen hNfe
      have hNfeA : m.NFEvaluations + (m.P.toNat : ℤ)
          ≤ (attemptReplacements m vMid.X).1.NFEvaluations := hNfe
      have hLenA : (attemptReplacements m vMid.X).1.Vertices.length
          = m.Vertices.length := hLen
      split
      · refine ⟨hF, hP2, hSteps2, hMax2, hKr, hKe, hKc, hTol, ?_, ?_, ?_⟩
        · exact (sortSimplex_length _).trans hLenA
        · show m.NFEvaluations ≤ (attemptReplacements m vMid.X).1.NFEvaluations
          omega
        · intro hP
          show m.NFEvaluations + 1
            ≤ (attemptReplacements m vMid.X).1.NFEvaluations
          omega
      · refine ⟨hF, hP2, hSteps2, hMax2, hKr, hKe, hKc, hTol, ?_, ?_, ?_⟩
        · rw [sortSimplex_length]
          show (List.mapIdx _ (attemptReplacements m vMid.X).1.Vertices).length
            = m.Vertices.length
          rw [List.length_mapIdx]
          exact hLenA
        · show m.NFEvaluations
            ≤ (attemptReplacements m vMid.X).1.NFEvaluations
              + (((attemptReplacements m vMid.X).1.Vertices.length : ℤ) - 1)
          rw [hLenA]
          omega
        · intro hP
          show m.NFEvaluations + 1
            ≤ (attemptReplacements m vMid.X).1.NFEvaluations
              + (((attemptReplacements m vMid.X).1.Vertices.length : ℤ) - 1)
          rw [hLenA]
          omega

/-- A whole batch of steps succeeds under the standing configuration
(`1 <= P`, `P + 1 <= N+1`), preserves the configuration and the simplex
size, and consumes at least one evaluation per step taken. -/
theorem takeStepsAux_progress (k : ℕ) (m : Minimizer)
    (hP : 1 ≤ m.P) (hnv : m.P + 1 ≤ (m.Vertices.length : ℤ)) :
    ∃ m1, takeStepsAux k m = .value (m1, none) ∧
      m1.P = m.P ∧ m1.Steps = m.Steps ∧
      m1.NFEvaluationsMax = m.NFEvaluationsMax ∧ m1.Tol = m.Tol ∧
      m1.Vertices.length = m.Vertices.length ∧
      m.NFEvaluations + (k : ℤ) ≤ m1.NFEvaluations := by
  induction k generalizing m with
  | zero => exact ⟨m, rfl, rfl, rfl, rfl, rfl, rfl, by omega⟩
  | succ k ih =>
    obtain ⟨m2, hok⟩ := takeOneStep_ok_of m (by omega) (by omega) (by omega)
    obtain ⟨_, hP2, hSteps2, hMax2, _, _, _, hTol2, hLen2, _, hplus⟩ :=
      takeOneStep_ok_fields m m2 hok
    obtain ⟨m1, haux, hP1, hSteps1, hMax1, hTol1, hLen1, hNfe1⟩ :=
      ih m2 (by omega) (by rw [hP2, hLen2]; exact hnv)
    refine ⟨m1, ?_, ?_, ?_, ?_, ?_, ?_, ?_⟩
    · simp only [takeStepsAux, hok]
      exact haux
    · rw [hP1, hP2]
    · rw [hSteps1, hSteps2]
    · rw [hMax1, hMax2]
    · rw [hTol1, hTol2]
    · rw [hLen1, hLen2]
    · have := hplus hP
      omega

/-- Termination of the outer loop with a successful result: with a
valid configuration every batch consumes evaluations, so after enough
batches the loop exits, either converged or with the budget exhausted,
and in both modes the result carries no error. -/
theorem minimizeLoop_terminates (d : ℕ) : ∀ m : Minimizer,
    (m.NFEvaluationsMax - m.NFEvaluations).toNat = d →
    1 ≤ m.P → m.P + 1 ≤ (m.Vertices.length : ℤ) → 1 ≤ m.Steps →
    ∃ fuel m1, minimizeLoop fuel m = some (.value (.ok m1)) ∧
      (m1.NFEvaluationsMax ≤ m1.NFEvaluations ∨
       sdevLtTol (fVariance m1.Vertices) m1.Tol = true) := by
  induction d using Nat.strong_induction_on with
  | _ d ih =>
    intro m hd hP hnv hSteps
    by_cases hlt : m.NFEvaluations < m.NFEvaluationsMax
    · obtain ⟨m2, hts, hP2, hSteps2, hMax2, hTol2, hLen2, hNfe2⟩ :=
        takeStepsAux_progress m.Steps.toNat m hP hnv
      have hts1 : TakeSteps m m.Steps = .value (m2, none) := by
        unfold TakeSteps
        rw [hts]
      have hnfe1 : m.NFEvaluations + 1 ≤ m2.NFEvaluations := by
        have hk1 : (1 : ℤ) ≤ (m.Steps.toNat : ℤ) := by omega
        omega
      have hne : ¬ m2.Vertices.length = 0 := by omega
      have hstat : fStats m2.Vertices
          = .ok (fMean m2.Vertices, fVariance m2.Vertices) := by
        simp only [fStats, if_neg hne]
      by_cases hsd : sdevLtTol (fVariance m2.Vertices) m2.Tol = true
      · refine ⟨1, m2, ?_, Or.inr hsd⟩
        simp only [minimizeLoop, if_pos hlt, hts1, hstat]
        rw [if_pos hsd]
      · have hd2 : (m2.NFEvaluationsMax - m2.NFEvaluations).toNat < d := by
          rw [hMax2]
          omega
        obtain ⟨fuel, m1, hloop, hmode⟩ := ih _ hd2 m2 rfl
          (by rw [hP2]; exact hP)
          (by rw [hP2, hLen2]; exact hnv)
          (by rw [hSteps2]; exact hSteps)
        refine ⟨fuel + 1, m1, ?_, hmode⟩
        simp only [minimizeLoop, if_pos hlt, hts1, hstat]
        rw [if_neg hsd]
        exact hloop
    · refine ⟨1, m, ?_, Or.inl (by omega)⟩
      simp only [minimizeLoop, if_neg hlt]

/-- C6: the outer loop of `MinimizeFromPoint` terminates without
signaling failure in both termination modes.  When the evaluation
budget is already exhausted the loop immediately returns the current
state successfully; otherwise, under the standing configuration
(`1 <= P <= N`, at least one step per batch), after each batch it
computes the f-statistics over all `N+1` vertices and stops
successfully as soon as the standard deviation is below the tolerance,
and it runs further batches only while the evaluation count is below
the configured maximum, so some finite fuel makes the loop return
`ok`; the final state satisfies the budget-exhausted or the converged
condition, which is how the caller tells the two modes apart. -/
theorem claim6_outer_loop (m : Minimizer) (hP : 1 ≤ m.P)
    (hnv : m.P + 1 ≤ (m.Vertices.length : ℤ)) (hSteps : 1 ≤ m.Steps) :
    (∀ fuel, m.NFEvaluationsMax ≤ m.NFEvaluations →
        minimizeLoop (fuel + 1) m = some (.value (.ok m))) ∧
    (∃ fuel m1, minimizeLoop fuel m = some (.value (.ok m1)) ∧
      (m1.NFEvaluationsMax ≤ m1.NFEvaluations ∨
       sdevLtTol (fVariance m1.Vertices) m1.Tol = true)) := by
  constructor
  · intro fuel hge
    simp only [minimizeLoop, if_neg (not_lt.mpr hge)]
  · exact minimizeLoop_terminates _ m rfl hP hnv hSteps

/-- Concrete instantiation for C6. -/
def cm6 : Minimizer :=
  { NewMinimizer (fun v => v.getD 0 0 * v.getD 0 0) with
      Vertices := [⟨[0], 0⟩, ⟨[1], 1⟩] }

/-- Witness for C6: the loop started at `cm6` terminates successfully
in one of the two modes. -/
theorem claim6_outer_loop_witness :
    ∃ fuel m1, minimizeLoop fuel cm6 = some (.value (.ok m1)) ∧
      (m1.NFEvaluationsMax ≤ m1.NFEvaluations ∨
       sdevLtTol (fVariance m1.Vertices) m1.Tol = true) :=
  (claim6_outer_loop cm6 (by decide) (by decide) (by decide)).2

theorem takeOneStep_centroid_error (m : Minimizer)
    (h0 : m.Vertices.length ≠ 0) (hk : (m.Vertices.length : ℤ) - m.P ≤ 0) :
    takeOneStep m = .value (.error
      ("Error while computing centroid: " ++ "Not enough vertices remaining.")) := by
  simp only [takeOneStep, Centroid, if_neg h0, if_pos hk]

theorem takeSteps_of_error (m : Minimizer) (nsteps : ℤ) (e : String)
    (herr : takeOneStep m = .value (.error e)) :
    (TakeSteps m nsteps = .value (m, none) ∨
     TakeSteps m nsteps = .value (m, some e)) ∧
    (1 ≤ nsteps → TakeSteps m nsteps = .value (m, some e)) := by
  unfold TakeSteps
  cases hk : nsteps.toNat with
  | zero =>
    exact ⟨Or.inl rfl, fun h => absurd hk (by omega)⟩
  | succ k =>
    have hred : takeStepsAux (k + 1) m = .value (m, some e) := by
      simp only [takeStepsAux, herr]
    exact ⟨Or.inr hred, fun _ => hred⟩

theorem minimizeLoop_spins (fuel : ℕ) : ∀ (m : Minimizer) (e : String),
    takeOneStep m = .value (.error e) →
    m.Vertices.length ≠ 0 →
    m.NFEvaluations < m.NFEvaluationsMax →
    sdevLtTol (fVariance m.Vertices) m.Tol = false →
    minimizeLoop fuel m = none := by
  induction fuel with
  | zero => intro m e _ _ _ _; rfl
  | succ fuel ih =>
    intro m e herr h0 hlt hnc
    have hstat : fStats m.Vertices
        = .ok (fMean m.Vertices, fVariance m.Vertices) := by
      simp only [fStats, if_neg h0]
    rcases (takeSteps_of_error m m.Steps e herr).1 with hts | hts
    all_goals
      simp only [minimizeLoop, if_pos hlt, hts, hstat]
      rw [if_neg (by rw [hnc]; exact Bool.false_ne_true)]
      exact ih m e herr h0 hlt hnc

theorem minimizeLoop_error_shape (fuel : ℕ) : ∀ (m : Minimizer) (e : String),
    minimizeLoop fuel m = some (.value (.error e)) →
    e = "Error while computing function stats: " ++ "No points in simplex" := by
  induction fuel with
  | zero =>
    intro m e h
    exact Option.noConfusion h
  | succ fuel ih =>
    intro m e h
    simp only [minimizeLoop] at h
    by_cases hlt : m.NFEvaluations < m.NFEvaluationsMax
    · rw [if_pos hlt] at h
      cases hts : TakeSteps m m.Steps with
      | aborted =>
        rw [hts] at h
        simp at h
      | value ts =>
        rw [hts] at h
        dsimp only at h
        cases hstat : fStats ts.1.Vertices with
        | error e2 =>
          rw [hstat] at h
          dsimp only at h
          simp only [Option.some.injEq, RunResult.value.injEq,
            Except.error.injEq] at h
          have he2 : e2 = "No points in simplex" := by
            simp only [fStats] at hstat
            by_cases hz : ts.1.Vertices.length = 0
            · rw [if_pos hz] at hstat
              simp only [Except.error.injEq] at hstat
              exact hstat.symm
            · rw [if_neg hz] at hstat
              exact Except.noConfusion hstat
          rw [← h, he2]
        | ok st =>
          rw [hstat] at h
          dsimp only at h
          by_cases hsd : sdevLtTol st.2 ts.1.Tol = true
          · rw [if_pos hsd] at h
            simp at h
          · rw [if_neg hsd] at h
            exact ih _ e h
    · rw [if_neg hlt] at h
      simp at h

/-- C10: `MinimizeFromPoint` discards the error value of `TakeSteps`.
When the per-iteration centroid computation fails (for instance when
`P >= N+1` makes `k <= 0`), `TakeSteps` reports a centroid error and
leaves the state untouched, yet the outer loop neither propagates that
error nor stops with failure: it keeps iterating (returning `none` for
every finite fuel while unconverged and under budget), and the only
error messages `MinimizeFromPoint` can ever report come from the
initial simplex construction or from the f-statistics of an empty
simplex. -/
theorem claim10_error_discarded :
    (∀ m : Minimizer, m.Vertices.length ≠ 0 →
        (m.Vertices.length : ℤ) ≤ m.P →
        takeOneStep m = .value (.error
          ("Error while computing centroid: "
            ++ "Not enough vertices remaining.")) ∧
        (∀ nsteps, TakeSteps m nsteps = .value (m, none) ∨
          TakeSteps m nsteps = .value (m,
            some ("Error while computing centroid: "
              ++ "Not enough vertices remaining."))) ∧
        (∀ nsteps, 1 ≤ nsteps → TakeSteps m nsteps = .value (m,
            some ("Error while computing centroid: "
              ++ "Not enough vertices remaining.")))) ∧
    (∀ (fuel : ℕ) (m : Minimizer), m.Vertices.length ≠ 0 →
        (m.Vertices.length : ℤ) ≤ m.P →
        m.NFEvaluations < m.NFEvaluationsMax →
        sdevLtTol (fVariance m.Vertices) m.Tol = false →
        minimizeLoop fuel m = none) ∧
    (∀ (fuel : ℕ) (m : Minimizer) (x dx : Vec) (e : String),
        MinimizeFromPoint fuel m x dx = some (.value (.error e)) →
        ((∃ e2, e = "Error while making initial simplex: " ++ e2) ∨
         e = "Error while computing function stats: "
            ++ "No points in simplex")) := by
  refine ⟨?_, ?_, ?_⟩
  · intro m h0 hge
    have herr := takeOneStep_centroid_error m h0 (by omega)
    exact ⟨herr,
      fun nsteps => (takeSteps_of_error m nsteps _ herr).1,
      fun nsteps h1 => (takeSteps_of_error m nsteps _ herr).2 h1⟩
  · intro fuel m h0 hge hlt hnc
    exact minimizeLoop_spins fuel m _
      (takeOneStep_centroid_error m h0 (by omega)) h0 hlt hnc
  · intro fuel m x dx e h
    simp only [MinimizeFromPoint] at h
    cases hc : MakeSimplexAboutPoint m.F x dx with
    | error e2 =>
      rw [hc] at h
      dsimp only at h
      simp only [Option.some.injEq, RunResult.value.injEq,
        Except.error.injEq] at h
      exact Or.inl ⟨e2, h.symm⟩
    | ok r =>
      rw [hc] at h
      dsimp only at h
      exact Or.inr (minimizeLoop_error_shape fuel _ e h)

/-- Concrete instantiation for C10: one vertex but `P = 5`, so the
centroid fails on every iteration. -/
def cm10 : Minimizer :=
  { NewMinimizer (fun v => v.getD 0 0) with
      Vertices := [⟨[0], 0⟩], P := 5, Tol := -1 }

/-- Witness for C10: at `cm10` the iteration reports the centroid
error while the state is untouched, the outer loop never stops, and a
minimization started from an empty start point reports exactly the
construction error. -/
theorem claim10_error_discarded_witness :
    takeOneStep cm10 = .value (.error
      ("Error while computing centroid: "
        ++ "Not enough vertices remaining.")) ∧
    minimizeLoop 7 cm10 = none ∧
    ((∃ e2, "Error while making initial simplex: "
          ++ "Zero number of parameters."
        = "Error while making initial simplex: " ++ e2) ∨
     "Error while making initial simplex: " ++ "Zero number of parameters."
        = "Error while computing function stats: "
          ++ "No points in simplex") := by
  refine ⟨(claim10_error_discarded.1 cm10 (by decide) (by decide)).1, ?_, ?_⟩
  · exact claim10_error_discarded.2.1 7 cm10 (by decide) (by decide)
      (by decide) (by decide)
  · exact claim10_error_discarded.2.2 1
      (NewMinimizer (fun v => v.getD 0 0)) [] [] _ rfl
